import Mathlib

/-!
Verification development for the `eye-guide` font-alignment repository.

The first half embeds the inner per-character offset search of
`align_fonts.py` (`move_image`, the remainder sum, `optimize_offset`) over
exact rationals: a bitmap is a width/height pair together with an intensity
function, `move_image` pads the vacated side and truncates the opposite one,
and the hill-climb loop is written with an explicit fuel that is proved
sufficient.  The second half embeds the outer scale search (`align_font`),
the per-charset aggregation (`align_font_instance`), and the weight
escalation of `fonts.py` (`_bolden`, `setup_boldened_font`).
-/

/-- A grayscale bitmap: `h` rows and `w` columns of rational intensities.
Pixels outside the `h × w` region are irrelevant (all sums range over the
region only).  Mirrors the NumPy float arrays of `align_fonts.py`. -/
structure Img where
  h : Nat
  w : Nat
  pix : Nat → Nat → ℚ

/-- Embedding of `move_image(img, dx, dy, pad_color)` from `align_fonts.py`:
`dx > 0` pads `dx` columns on the left and truncates on the right (and
symmetrically for the other signs / the vertical axis), so the pixel at
`(i, j)` of the result is the source pixel at `(i - dy, j - dx)` when that
position is inside the canvas and the pad value otherwise.  Ink shifted
off-canvas is lost, never wrapped. -/
def move_image (img : Img) (dx dy : Int) (pad : ℚ) : Img where
  h := img.h
  w := img.w
  pix := fun i j =>
    if 0 ≤ (i : Int) - dy ∧ (i : Int) - dy < (img.h : Int) ∧
       0 ≤ (j : Int) - dx ∧ (j : Int) - dx < (img.w : Int) then
      img.pix ((i : Int) - dy).toNat ((j : Int) - dx).toNat
    else pad

/-- Embedding of `np.sum(ov * (1.0 - ref))`: the un-normalized remainder of `ref`'s ink
not covered by `ov`, summed over the reference canvas. -/
def remainderSum (ov ref : Img) : ℚ :=
  ∑ i ∈ Finset.range ref.h, ∑ j ∈ Finset.range ref.w,
    ov.pix i j * (1 - ref.pix i j)

/-- Embedding of `img /= 255.0`: pixel-wise division by 255. -/
def normalizeImg (img : Img) : Img where
  h := img.h
  w := img.w
  pix := fun i j => img.pix i j / 255

/-- The remainder of the overlay shifted by a candidate offset, as computed
inside the search loop of `optimize_offset`: the overlay (already
normalized) is moved with the *default* pad value 255 of `move_image`. -/
def offsetRemainder (ov ref : Img) (o : Int × Int) : ℚ :=
  remainderSum (move_image ov o.1 o.2 255) ref

/-- The `remainders` dictionary of `optimize_offset`, keyed by offset. -/
abbrev Memo := List ((Int × Int) × ℚ)

/-- Dictionary lookup in the memo. -/
def memoLookup : Memo → (Int × Int) → Option ℚ
  | [], _ => none
  | (k, v) :: m, o => if k = o then some v else memoLookup m o

/-- The fixed neighbor enumeration order of `optimize_offset`. -/
def neighbors : List (Int × Int) :=
  [(1, 0), (1, 1), (0, 1), (-1, 1), (-1, 0), (-1, -1), (0, -1), (1, -1)]

/-- One body of the `for dx, dy in neighbors` loop: if the offset is not in
the memo, compute its remainder and record it; return the (possibly cached)
remainder together with the updated memo. -/
def evalNeighbor (ov ref : Img) (memo : Memo) (o : Int × Int) : ℚ × Memo :=
  match memoLookup memo o with
  | some r => (r, memo)
  | none => (offsetRemainder ov ref o, (o, offsetRemainder ov ref o) :: memo)

/-- The full `for` loop over the neighbor list: returns the
`neighbor_remainders` list (in enumeration order) and the updated memo. -/
def stepNeighbors (ov ref : Img) (o : Int × Int) :
    List (Int × Int) → Memo → List ℚ × Memo
  | [], memo => ([], memo)
  | d :: ds, memo =>
    let p := evalNeighbor ov ref memo (o.1 + d.1, o.2 + d.2)
    let q := stepNeighbors ov ref o ds p.2
    (p.1 :: q.1, q.2)

/-- Helper for `argminList`: scans the tail with the running minimum value
and its index; ties keep the earlier index, as `np.argmin` does. -/
def argminAux : List ℚ → ℚ × Nat → Nat → ℚ × Nat
  | [], b, _ => b
  | x :: xs, b, i => argminAux xs (if x < b.1 then (x, i) else b) (i + 1)

/-- Embedding of `np.argmin` on a list: index of the first occurrence of the minimum. -/
def argminList : List ℚ → Nat
  | [] => 0
  | x :: xs => (argminAux xs (x, 0) 1).2

/-- The `while True` hill-climb of `optimize_offset`, written with explicit
fuel (the Python loop is unbounded; `searchFuel` below is proved
sufficient).  Each iteration evaluates the eight neighbor remainders in
order, takes the first index of minimum cost, stops when that cost is not
strictly below the current offset's memoized remainder, and otherwise moves
to that neighbor. -/
def optLoop (ov ref : Img) : Nat → (Int × Int) → Memo → Option ((Int × Int) × Memo)
  | 0, _, _ => none
  | fuel + 1, o, memo =>
    let p := stepNeighbors ov ref o neighbors memo
    let i := argminList p.1
    if (memoLookup p.2 o).getD 0 ≤ p.1.getD i 0 then
      some (o, p.2)
    else
      optLoop ov ref fuel
        (o.1 + (neighbors.getD i (0, 0)).1, o.2 + (neighbors.getD i (0, 0)).2) p.2

/-- The output of `create_char_image`: the rendered bitmap, the ink
bounding box `(x0, y0, x1, y1)` in canvas coordinates, and the `(x, y)`
anchor used for drawing.  Rendering itself is done by PIL and is external;
the optimizer only consumes this record. -/
structure CharImage where
  image : Img
  bbox : ℚ × ℚ × ℚ × ℚ
  xy : ℚ × ℚ

/-- Fuel that is provably sufficient for the hill climb: one more than the
number of offsets in the saturation box (see `optLoop_isSome_of_fuel`). -/
def searchFuel (ref : Img) : Nat := (2 * ref.w + 1) * (2 * ref.h + 1) + 1

/-- The search phase of `optimize_offset`: normalize both bitmaps, seed the
memo with the remainder at `(0, 0)`, and run the hill climb. -/
def searchResult (overlay_img ref_img : CharImage) : Option ((Int × Int) × Memo) :=
  let refN := normalizeImg ref_img.image
  let ovN := normalizeImg overlay_img.image
  optLoop ovN refN (searchFuel ref_img.image) (0, 0) [((0, 0), remainderSum ovN refN)]

/-- The per-character record returned by `optimize_offset`:
`{"size": ..., "offset": ..., "remainder": ...}`. -/
structure OffsetResult where
  size : ℚ × ℚ
  offset : ℚ × ℚ
  remainder : ℚ
deriving DecidableEq

/-- Embedding of `optimize_offset`: run the search, then convert the raw
remainder at the final offset to a ratio by dividing by the reference
canvas area, fold the difference of the two independent horizontal anchors
into the x component, and divide both components by the overlay font size
(`overlay_font.size`, passed here as `font_size`). -/
def optimize_offset (overlay_img ref_img : CharImage) (font_size : ℚ) : Option OffsetResult :=
  match searchResult overlay_img ref_img with
  | none => none
  | some (o, memo) =>
    let rem := (memoLookup memo o).getD 0 / ((ref_img.image.h : ℚ) * (ref_img.image.w : ℚ))
    let initX := overlay_img.xy.1 - ref_img.xy.1
    some {
      size := ((overlay_img.bbox.2.2.1 - overlay_img.bbox.1) / font_size,
               (overlay_img.bbox.2.2.2 - overlay_img.bbox.2.1) / font_size),
      offset := (((o.1 : ℚ) + initX) / font_size, (o.2 : ℚ) / font_size),
      remainder := rem }

/-! ## Memoization invariant -/

/-- Every value recorded in the memo is the true remainder of its offset. -/
def MemoInv (ov ref : Img) (m : Memo) : Prop :=
  ∀ o r, memoLookup m o = some r → r = offsetRemainder ov ref o

lemma evalNeighbor_fst (ov ref : Img) (m : Memo) (o : Int × Int)
    (h : MemoInv ov ref m) :
    (evalNeighbor ov ref m o).1 = offsetRemainder ov ref o := by
  rcases hm : memoLookup m o with _ | r
  · simp [evalNeighbor, hm]
  · simpa [evalNeighbor, hm] using h o r hm

lemma evalNeighbor_inv (ov ref : Img) (m : Memo) (o : Int × Int)
    (h : MemoInv ov ref m) :
    MemoInv ov ref (evalNeighbor ov ref m o).2 := by
  rcases hm : memoLookup m o with _ | r
  · intro o' r' h'
    simp only [evalNeighbor, hm, memoLookup] at h'
    split at h'
    · cases h'
      simp_all
    · exact h o' r' h'
  · simpa [evalNeighbor, hm] using h

lemma evalNeighbor_persist (ov ref : Img) (m : Memo) (o o' : Int × Int) (r : ℚ)
    (h : memoLookup m o' = some r) :
    memoLookup (evalNeighbor ov ref m o).2 o' = some r := by
  rcases hm : memoLookup m o with _ | v
  · simp only [evalNeighbor, hm, memoLookup]
    split
    · simp_all
    · exact h
  · simpa [evalNeighbor, hm] using h

lemma evalNeighbor_lookup (ov ref : Img) (m : Memo) (o : Int × Int)
    (h : MemoInv ov ref m) :
    memoLookup (evalNeighbor ov ref m o).2 o = some (offsetRemainder ov ref o) := by
  rcases hm : memoLookup m o with _ | r
  · simp [evalNeighbor, hm, memoLookup]
  · simp only [evalNeighbor, hm]
    rw [h o r hm]

/-- One pass over a neighbor list: the collected remainder list is exactly the
pointwise remainders in enumeration order, the invariant is preserved, old
entries persist, and every processed neighbor is recorded. -/
lemma stepNeighbors_spec (ov ref : Img) (o : Int × Int) :
    ∀ (ds : List (Int × Int)) (m : Memo), MemoInv ov ref m →
      (stepNeighbors ov ref o ds m).1
          = ds.map (fun d => offsetRemainder ov ref (o.1 + d.1, o.2 + d.2)) ∧
      MemoInv ov ref (stepNeighbors ov ref o ds m).2 ∧
      (∀ o' r, memoLookup m o' = some r →
          memoLookup (stepNeighbors ov ref o ds m).2 o' = some r) ∧
      (∀ d ∈ ds, memoLookup (stepNeighbors ov ref o ds m).2 (o.1 + d.1, o.2 + d.2)
          = some (offsetRemainder ov ref (o.1 + d.1, o.2 + d.2))) := by
  intro ds
  induction ds with
  | nil => intro m h; simp [stepNeighbors, h]
  | cons d ds ih =>
    intro m h
    have hfst := evalNeighbor_fst ov ref m (o.1 + d.1, o.2 + d.2) h
    have hinv := evalNeighbor_inv ov ref m (o.1 + d.1, o.2 + d.2) h
    have hlook := evalNeighbor_lookup ov ref m (o.1 + d.1, o.2 + d.2) h
    obtain ⟨ih1, ih2, ih3, ih4⟩ := ih (evalNeighbor ov ref m (o.1 + d.1, o.2 + d.2)).2 hinv
    refine ⟨?_, ?_, ?_, ?_⟩
    · simp [stepNeighbors, ih1, hfst]
    · simpa [stepNeighbors] using ih2
    · intro o' r hr
      simpa [stepNeighbors] using
        ih3 o' r (evalNeighbor_persist ov ref m (o.1 + d.1, o.2 + d.2) o' r hr)
    · intro e he
      rcases List.mem_cons.mp he with rfl | he
      · simpa [stepNeighbors] using ih3 _ _ hlook
      · simpa [stepNeighbors] using ih4 e he

/-! ## `argmin` facts -/

lemma getD_mem {α : Type} (d : α) : ∀ (l : List α) (k : Nat), k < l.length → l.getD k d ∈ l := by
  intro l
  induction l with
  | nil => intro k h; simp at h
  | cons x xs ih =>
    intro k h
    cases k with
    | zero => simp
    | succ k =>
      right
      exact ih k (by simpa using Nat.lt_of_succ_lt_succ h)

lemma getD_map {α β : Type} (f : α → β) (a : α) (b : β) :
    ∀ (l : List α) (k : Nat), k < l.length → (l.map f).getD k b = f (l.getD k a) := by
  intro l
  induction l with
  | nil => intro k h; simp at h
  | cons x xs ih =>
    intro k h
    cases k with
    | zero => simp
    | succ k => simpa using ih k (by simpa using Nat.lt_of_succ_lt_succ h)

lemma argminAux_le : ∀ (xs : List ℚ) (b : ℚ × Nat) (i : Nat),
    (argminAux xs b i).1 ≤ b.1 ∧ ∀ x ∈ xs, (argminAux xs b i).1 ≤ x := by
  intro xs
  induction xs with
  | nil => intro b i; simp [argminAux]
  | cons x xs ih =>
    intro b i
    by_cases hx : x < b.1
    · obtain ⟨h1, h2⟩ := ih (x, i) (i + 1)
      refine ⟨le_of_lt (lt_of_le_of_lt (by simpa [argminAux, hx] using h1) hx), ?_⟩
      intro y hy
      rcases List.mem_cons.mp hy with rfl | hy
      · simpa [argminAux, hx] using h1
      · simpa [argminAux, hx] using h2 y hy
    · obtain ⟨h1, h2⟩ := ih b (i + 1)
      refine ⟨by simpa [argminAux, hx] using h1, ?_⟩
      intro y hy
      rcases List.mem_cons.mp hy with rfl | hy
      · exact le_trans (by simpa [argminAux, hx] using h1) (le_of_not_lt hx)
      · simpa [argminAux, hx] using h2 y hy

lemma argminAux_mem : ∀ (xs : List ℚ) (b : ℚ × Nat) (i : Nat),
    argminAux xs b i = b ∨
    ∃ k, k < xs.length ∧ argminAux xs b i = (xs.getD k 0, i + k) := by
  intro xs
  induction xs with
  | nil => intro b i; left; rfl
  | cons x xs ih =>
    intro b i
    by_cases hx : x < b.1
    · rcases ih (x, i) (i + 1) with h | ⟨k, hk, h⟩
      · right
        exact ⟨0, by simp, by simpa [argminAux, hx] using h⟩
      · right
        refine ⟨k + 1, by simpa using Nat.succ_lt_succ hk, ?_⟩
        have : i + 1 + k = i + (k + 1) := by omega
        simpa [argminAux, hx, this] using h
    · rcases ih b (i + 1) with h | ⟨k, hk, h⟩
      · left; simpa [argminAux, hx] using h
      · right
        refine ⟨k + 1, by simpa using Nat.succ_lt_succ hk, ?_⟩
        have : i + 1 + k = i + (k + 1) := by omega
        simpa [argminAux, hx, this] using h

lemma argminList_lt_length (l : List ℚ) (h : l ≠ []) : argminList l < l.length := by
  cases l with
  | nil => simp at h
  | cons x xs =>
    rcases argminAux_mem xs (x, 0) 1 with h' | ⟨k, hk, h'⟩
    · simp [argminList, h']
    · simp only [argminList, h', List.length_cons]
      omega

/-- The value at the argmin index is a lower bound for every entry. -/
lemma argminList_getD_le (l : List ℚ) :
    ∀ k, k < l.length → l.getD (argminList l) 0 ≤ l.getD k 0 := by
  cases l with
  | nil => intro k h; simp at h
  | cons x xs =>
    have hval : (x :: xs).getD (argminList (x :: xs)) 0 = (argminAux xs (x, 0) 1).1 := by
      rcases argminAux_mem xs (x, 0) 1 with h' | ⟨k, hk, h'⟩
      · simp [argminList, h']
      · have h1k : 1 + k = k + 1 := Nat.add_comm 1 k
        simp [argminList, h', h1k, List.getD_cons_succ]
    intro k hk
    rw [hval]
    obtain ⟨h1, h2⟩ := argminAux_le xs (x, 0) 1
    cases k with
    | zero => simpa using h1
    | succ k =>
      have : (x :: xs).getD (k + 1) 0 = xs.getD k 0 := rfl
      rw [this]
      exact h2 _ (getD_mem 0 xs k (by simpa using Nat.lt_of_succ_lt_succ hk))

/-! ## Basic facts about the shifted remainder -/

/-- Shifting by `(0, 0)` leaves every canvas pixel unchanged, so the seed
value `np.sum(overlay * (1 - ref))` stored for offset `(0, 0)` is the
remainder at that offset. -/
lemma remainderSum_move_zero (ov ref : Img) (p : ℚ)
    (hh : ov.h = ref.h) (hw : ov.w = ref.w) :
    remainderSum (move_image ov 0 0 p) ref = remainderSum ov ref := by
  unfold remainderSum
  refine Finset.sum_congr rfl fun i hi => Finset.sum_congr rfl fun j hj => ?_
  simp only [Finset.mem_range] at hi hj
  have hpix : (move_image ov 0 0 p).pix i j = ov.pix i j := by
    have h1 : ((i : Int) - 0).toNat = i := by omega
    have h2 : ((j : Int) - 0).toNat = j := by omega
    unfold move_image
    simp only
    rw [if_pos ⟨by omega, by omega, by omega, by omega⟩, h1, h2]
  rw [hpix]

lemma offsetRemainder_zero (ov ref : Img) (hh : ov.h = ref.h) (hw : ov.w = ref.w) :
    offsetRemainder ov ref (0, 0) = remainderSum ov ref :=
  remainderSum_move_zero ov ref 255 hh hw

/-! ## Soundness of the hill-climb loop -/

lemma optLoop_zero (ov ref : Img) (o : Int × Int) (memo : Memo) :
    optLoop ov ref 0 o memo = none := rfl

/-- Definitional unfolding of one loop iteration. -/
lemma optLoop_succ (ov ref : Img) (n : Nat) (o : Int × Int) (memo : Memo) :
    optLoop ov ref (n + 1) o memo =
      if (memoLookup (stepNeighbors ov ref o neighbors memo).2 o).getD 0 ≤
          (stepNeighbors ov ref o neighbors memo).1.getD
            (argminList (stepNeighbors ov ref o neighbors memo).1) 0 then
        some (o, (stepNeighbors ov ref o neighbors memo).2)
      else
        optLoop ov ref n
          (o.1 + (neighbors.getD (argminList (stepNeighbors ov ref o neighbors memo).1) (0, 0)).1,
           o.2 + (neighbors.getD (argminList (stepNeighbors ov ref o neighbors memo).1) (0, 0)).2)
          (stepNeighbors ov ref o neighbors memo).2 := rfl

/-- If the loop returns, the final offset's remainder is at most the initial
offset's remainder, the memo invariant still holds, and the final offset's
remainder is recorded in the returned memo. -/
lemma optLoop_sound (ov ref : Img) :
    ∀ (fuel : Nat) (o : Int × Int) (memo : Memo) (o' : Int × Int) (memo' : Memo),
      MemoInv ov ref memo →
      memoLookup memo o = some (offsetRemainder ov ref o) →
      optLoop ov ref fuel o memo = some (o', memo') →
      offsetRemainder ov ref o' ≤ offsetRemainder ov ref o ∧
      MemoInv ov ref memo' ∧
      memoLookup memo' o' = some (offsetRemainder ov ref o') := by
  intro fuel
  induction fuel with
  | zero => intro o memo o' memo' _ _ h; rw [optLoop_zero] at h; cases h
  | succ n ih =>
    intro o memo o' memo' hinv hcur hloop
    obtain ⟨hfst, hinv2, hpersist, hmem⟩ := stepNeighbors_spec ov ref o neighbors memo hinv
    rw [optLoop_succ] at hloop
    set p := stepNeighbors ov ref o neighbors memo with hp
    have hcur2 : memoLookup p.2 o = some (offsetRemainder ov ref o) :=
      hpersist o _ hcur
    rw [hcur2, Option.getD_some] at hloop
    by_cases hstop : offsetRemainder ov ref o ≤ p.1.getD (argminList p.1) 0
    · rw [if_pos hstop] at hloop
      obtain ⟨rfl, rfl⟩ : o = o' ∧ p.2 = memo' := by simpa using hloop
      exact ⟨le_refl _, hinv2, hcur2⟩
    · rw [if_neg hstop] at hloop
      have hlen : p.1.length = neighbors.length := by rw [hfst]; simp
      have hne : p.1 ≠ [] := by
        intro hnil
        rw [hnil] at hlen
        simp [neighbors] at hlen
      have hi : argminList p.1 < neighbors.length := hlen ▸ argminList_lt_length p.1 hne
      have hdval : ∀ k, k < neighbors.length → p.1.getD k 0
          = offsetRemainder ov ref
              (o.1 + (neighbors.getD k (0, 0)).1, o.2 + (neighbors.getD k (0, 0)).2) := by
        intro k hk
        rw [hfst]
        exact getD_map _ (0, 0) 0 neighbors k hk
      have hdmem : neighbors.getD (argminList p.1) (0, 0) ∈ neighbors :=
        getD_mem (0, 0) neighbors _ hi
      have hnext := hmem _ hdmem
      obtain ⟨ihle, ihinv, ihlook⟩ := ih _ p.2 o' memo' hinv2 hnext hloop
      have hlt : offsetRemainder ov ref
          (o.1 + (neighbors.getD (argminList p.1) (0, 0)).1,
           o.2 + (neighbors.getD (argminList p.1) (0, 0)).2)
          < offsetRemainder ov ref o := hdval _ hi ▸ lt_of_not_le hstop
      exact ⟨le_of_lt (lt_of_le_of_lt ihle hlt), ihinv, ihlook⟩

/-! ## The memo-free description of one iteration (used for claim C3) -/

/-- One iteration of the hill climb, described without the memo: evaluate
the remainder at the 8 neighbors in the fixed enumeration order, pick the
first index of overall-minimum cost, stop (`none`) when that cost is not
strictly below the current offset's remainder, and otherwise move there. -/
def pureStep (ov ref : Img) (o : Int × Int) : Option (Int × Int) :=
  let nrs := neighbors.map fun d => offsetRemainder ov ref (o.1 + d.1, o.2 + d.2)
  let i := argminList nrs
  if offsetRemainder ov ref o ≤ nrs.getD i 0 then none
  else some (o.1 + (neighbors.getD i (0, 0)).1, o.2 + (neighbors.getD i (0, 0)).2)

/-- Iterating `pureStep` until it stops (with the same fuel convention as
`optLoop`). -/
def pureLoop (ov ref : Img) : Nat → (Int × Int) → Option (Int × Int)
  | 0, _ => none
  | fuel + 1, o =>
    match pureStep ov ref o with
    | none => some o
    | some o2 => pureLoop ov ref fuel o2

lemma pureLoop_succ (ov ref : Img) (n : Nat) (o : Int × Int) :
    pureLoop ov ref (n + 1) o =
      match pureStep ov ref o with
      | none => some o
      | some o2 => pureLoop ov ref n o2 := rfl

/-- The memoized loop computes exactly the same offsets as the memo-free
description: caching remainders by offset never changes a decision. -/
lemma optLoop_pure (ov ref : Img) :
    ∀ (fuel : Nat) (o : Int × Int) (memo : Memo),
      MemoInv ov ref memo →
      memoLookup memo o = some (offsetRemainder ov ref o) →
      (optLoop ov ref fuel o memo).map Prod.fst = pureLoop ov ref fuel o := by
  intro fuel
  induction fuel with
  | zero => intro o memo _ _; rw [optLoop_zero]; rfl
  | succ n ih =>
    intro o memo hinv hcur
    obtain ⟨hfst, hinv2, hpersist, hmem⟩ := stepNeighbors_spec ov ref o neighbors memo hinv
    rw [optLoop_succ, pureLoop_succ]
    set p := stepNeighbors ov ref o neighbors memo with hp
    have hcur2 : memoLookup p.2 o = some (offsetRemainder ov ref o) :=
      hpersist o _ hcur
    rw [hcur2, Option.getD_some]
    have hps : pureStep ov ref o =
        if offsetRemainder ov ref o ≤ p.1.getD (argminList p.1) 0 then none
        else some (o.1 + (neighbors.getD (argminList p.1) (0, 0)).1,
                   o.2 + (neighbors.getD (argminList p.1) (0, 0)).2) := by
      rw [pureStep]
      simp only [← hfst]
    rw [hps]
    by_cases hstop : offsetRemainder ov ref o ≤ p.1.getD (argminList p.1) 0
    · rw [if_pos hstop, if_pos hstop]
      rfl
    · rw [if_neg hstop, if_neg hstop]
      have hlen : p.1.length = neighbors.length := by rw [hfst]; simp
      have hne : p.1 ≠ [] := by
        intro hnil
        rw [hnil] at hlen
        simp [neighbors] at hlen
      have hi : argminList p.1 < neighbors.length := hlen ▸ argminList_lt_length p.1 hne
      exact ih _ p.2 hinv2 (hmem _ (getD_mem (0, 0) neighbors _ hi))

/-! ## Termination of the hill climb

`move_image` saturates: shifting by more than the canvas extent produces the
same bitmap as shifting by exactly the extent, so the remainder as a
function of the offset takes only finitely many values.  A strictly
decreasing chain of such values bounds the number of loop iterations. -/

/-- Clamp an integer shift into `[-n, n]`. -/
def clampTo (n : Nat) (x : Int) : Int :=
  if x < -(n : Int) then -(n : Int) else if (n : Int) < x then (n : Int) else x

lemma move_pix_clamp (ov : Img) (dx dy : Int) (p : ℚ) (i j : Nat)
    (hi : i < ov.h) (hj : j < ov.w) :
    (move_image ov (clampTo ov.w dx) (clampTo ov.h dy) p).pix i j
      = (move_image ov dx dy p).pix i j := by
  unfold move_image clampTo
  simp only
  split_ifs <;> first | rfl | (exfalso; omega)

lemma offsetRemainder_clamp (ov ref : Img) (hh : ov.h = ref.h) (hw : ov.w = ref.w)
    (o : Int × Int) :
    offsetRemainder ov ref (clampTo ov.w o.1, clampTo ov.h o.2)
      = offsetRemainder ov ref o := by
  unfold offsetRemainder remainderSum
  refine Finset.sum_congr rfl fun i hi => Finset.sum_congr rfl fun j hj => ?_
  simp only [Finset.mem_range] at hi hj
  rw [show (move_image ov (clampTo ov.w o.1) (clampTo ov.h o.2) 255).pix i j
        = (move_image ov o.1 o.2 255).pix i j from
      move_pix_clamp ov o.1 o.2 255 i j (by omega) (by omega)]

/-- All remainder values over the clamp box.  By `offsetRemainder_clamp`,
every offset's remainder belongs to this finite set. -/
def remValues (ov ref : Img) : Finset ℚ :=
  (Finset.Icc (-(ov.w : Int)) (ov.w : Int) ×ˢ Finset.Icc (-(ov.h : Int)) (ov.h : Int)).image
    (fun q : Int × Int => offsetRemainder ov ref q)

lemma offsetRemainder_mem_remValues (ov ref : Img) (hh : ov.h = ref.h)
    (hw : ov.w = ref.w) (o : Int × Int) :
    offsetRemainder ov ref o ∈ remValues ov ref := by
  rw [← offsetRemainder_clamp ov ref hh hw o]
  refine Finset.mem_image.mpr ⟨(clampTo ov.w o.1, clampTo ov.h o.2), ?_, rfl⟩
  refine Finset.mem_product.mpr ⟨?_, ?_⟩ <;>
    · rw [Finset.mem_Icc]
      unfold clampTo
      split_ifs <;> omega

/-- Number of attainable remainder values strictly below the current one:
the quantity that strictly decreases at every accepted move. -/
def descentMeasure (ov ref : Img) (o : Int × Int) : Nat :=
  ((remValues ov ref).filter (fun v => v < offsetRemainder ov ref o)).card

lemma descentMeasure_lt (ov ref : Img) (hh : ov.h = ref.h) (hw : ov.w = ref.w)
    (o o' : Int × Int)
    (hlt : offsetRemainder ov ref o' < offsetRemainder ov ref o) :
    descentMeasure ov ref o' < descentMeasure ov ref o := by
  apply Finset.card_lt_card
  have hsub : (remValues ov ref).filter (fun v => v < offsetRemainder ov ref o')
      ⊆ (remValues ov ref).filter (fun v => v < offsetRemainder ov ref o) := by
    intro v hv
    rw [Finset.mem_filter] at hv ⊢
    exact ⟨hv.1, lt_trans hv.2 hlt⟩
  refine (Finset.ssubset_iff_of_subset hsub).mpr
    ⟨offsetRemainder ov ref o', Finset.mem_filter.mpr
      ⟨offsetRemainder_mem_remValues ov ref hh hw o', hlt⟩, ?_⟩
  rw [Finset.mem_filter]
  exact fun h => lt_irrefl _ h.2

/-- With more fuel than the number of attainable values below the start,
the hill climb returns. -/
lemma optLoop_isSome (ov ref : Img) (hh : ov.h = ref.h) (hw : ov.w = ref.w) :
    ∀ (fuel : Nat) (o : Int × Int) (memo : Memo),
      MemoInv ov ref memo →
      memoLookup memo o = some (offsetRemainder ov ref o) →
      descentMeasure ov ref o < fuel →
      (optLoop ov ref fuel o memo).isSome := by
  intro fuel
  induction fuel with
  | zero => intro o memo _ _ h; omega
  | succ n ih =>
    intro o memo hinv hcur hfuel
    obtain ⟨hfst, hinv2, hpersist, hmem⟩ := stepNeighbors_spec ov ref o neighbors memo hinv
    rw [optLoop_succ]
    set p := stepNeighbors ov ref o neighbors memo with hp
    have hcur2 : memoLookup p.2 o = some (offsetRemainder ov ref o) :=
      hpersist o _ hcur
    rw [hcur2, Option.getD_some]
    by_cases hstop : offsetRemainder ov ref o ≤ p.1.getD (argminList p.1) 0
    · rw [if_pos hstop]
      rfl
    · rw [if_neg hstop]
      have hlen : p.1.length = neighbors.length := by rw [hfst]; simp
      have hne : p.1 ≠ [] := by
        intro hnil
        rw [hnil] at hlen
        simp [neighbors] at hlen
      have hi : argminList p.1 < neighbors.length := hlen ▸ argminList_lt_length p.1 hne
      have hdval : ∀ k, k < neighbors.length → p.1.getD k 0
          = offsetRemainder ov ref
              (o.1 + (neighbors.getD k (0, 0)).1, o.2 + (neighbors.getD k (0, 0)).2) := by
        intro k hk
        rw [hfst]
        exact getD_map _ (0, 0) 0 neighbors k hk
      have hlt : offsetRemainder ov ref
          (o.1 + (neighbors.getD (argminList p.1) (0, 0)).1,
           o.2 + (neighbors.getD (argminList p.1) (0, 0)).2)
          < offsetRemainder ov ref o := hdval _ hi ▸ lt_of_not_le hstop
      refine ih _ p.2 hinv2 (hmem _ (getD_mem (0, 0) neighbors _ hi)) ?_
      have := descentMeasure_lt ov ref hh hw o _ hlt
      omega

lemma descentMeasure_lt_bound (ov ref : Img) (o : Int × Int) :
    descentMeasure ov ref o < (2 * ov.w + 1) * (2 * ov.h + 1) + 1 := by
  have h1 : descentMeasure ov ref o ≤ (remValues ov ref).card :=
    Finset.card_filter_le _ _
  have h2 : (remValues ov ref).card
      ≤ ((Finset.Icc (-(ov.w : Int)) (ov.w : Int)
          ×ˢ Finset.Icc (-(ov.h : Int)) (ov.h : Int))).card :=
    Finset.card_image_le
  rw [Finset.card_product, Int.card_Icc, Int.card_Icc] at h2
  have e1 : ((ov.w : Int) + 1 - -(ov.w : Int)).toNat = 2 * ov.w + 1 := by omega
  have e2 : ((ov.h : Int) + 1 - -(ov.h : Int)).toNat = 2 * ov.h + 1 := by omega
  rw [e1, e2] at h2
  omega

/-- The seed memo `{(0, 0): np.sum(overlay * (1 - ref))}` satisfies the
invariant and records the remainder at the start offset. -/
lemma initMemo_spec (ov ref : Img) (hh : ov.h = ref.h) (hw : ov.w = ref.w) :
    MemoInv ov ref [((0, 0), remainderSum ov ref)] ∧
    memoLookup [((0, 0), remainderSum ov ref)] (0, 0)
      = some (offsetRemainder ov ref (0, 0)) := by
  constructor
  · intro o r h
    simp only [memoLookup] at h
    split at h
    · rename_i heq
      cases h
      rw [← heq, offsetRemainder_zero ov ref hh hw]
    · cases h
  · rw [show memoLookup [((0, 0), remainderSum ov ref)] (0, 0)
        = some (remainderSum ov ref) from if_pos rfl,
      offsetRemainder_zero ov ref hh hw]

/-- The search phase always returns when the two bitmaps have equal shape
(as they do in `optimize_offset`, where the overlay is rendered onto the
reference canvas). -/
lemma searchResult_isSome (overlay_img ref_img : CharImage)
    (hh : overlay_img.image.h = ref_img.image.h)
    (hw : overlay_img.image.w = ref_img.image.w) :
    (searchResult overlay_img ref_img).isSome := by
  have hh2 : (normalizeImg overlay_img.image).h = (normalizeImg ref_img.image).h := hh
  have hw2 : (normalizeImg overlay_img.image).w = (normalizeImg ref_img.image).w := hw
  obtain ⟨hinv, hlook⟩ := initMemo_spec (normalizeImg overlay_img.image)
    (normalizeImg ref_img.image) hh2 hw2
  show (optLoop (normalizeImg overlay_img.image) (normalizeImg ref_img.image)
      (searchFuel ref_img.image) (0, 0)
      [((0, 0), remainderSum (normalizeImg overlay_img.image)
          (normalizeImg ref_img.image))]).isSome
  refine optLoop_isSome _ _ hh2 hw2 _ _ _ hinv hlook ?_
  have hb := descentMeasure_lt_bound (normalizeImg overlay_img.image)
    (normalizeImg ref_img.image) (0, 0)
  have he : (normalizeImg overlay_img.image).w = ref_img.image.w := hw
  have he2 : (normalizeImg overlay_img.image).h = ref_img.image.h := hh
  rw [he, he2] at hb
  exact hb

/-! ## Value bounds -/

/-- Intensities of a rendered `uint8` bitmap after `/= 255.0` lie in `[0, 1]`. -/
lemma normalize_bounds (img : Img)
    (hb : ∀ i j, i < img.h → j < img.w → 0 ≤ img.pix i j ∧ img.pix i j ≤ 255) :
    ∀ i j, i < img.h → j < img.w →
      0 ≤ (normalizeImg img).pix i j ∧ (normalizeImg img).pix i j ≤ 1 := by
  intro i j hi hj
  obtain ⟨h0, h255⟩ := hb i j hi hj
  constructor
  · show (0 : ℚ) ≤ img.pix i j / 255
    exact div_nonneg h0 (by norm_num)
  · show img.pix i j / 255 ≤ (1 : ℚ)
    rw [div_le_one (by norm_num)]
    exact h255

/-- A moved image is nonnegative everywhere when the source is nonnegative
on its canvas (the pad value 255 is nonnegative as well). -/
lemma move_image_nonneg (ov : Img) (dx dy : Int)
    (h : ∀ i j, i < ov.h → j < ov.w → 0 ≤ ov.pix i j) :
    ∀ i j, 0 ≤ (move_image ov dx dy 255).pix i j := by
  intro i j
  unfold move_image
  simp only
  split
  · rename_i hc
    exact h _ _ (by omega) (by omega)
  · norm_num

lemma remainderSum_nonneg (ov ref : Img)
    (hov : ∀ i j, i < ref.h → j < ref.w → 0 ≤ ov.pix i j)
    (href : ∀ i j, i < ref.h → j < ref.w → ref.pix i j ≤ 1) :
    0 ≤ remainderSum ov ref := by
  refine Finset.sum_nonneg fun i hi => Finset.sum_nonneg fun j hj => ?_
  rw [Finset.mem_range] at hi hj
  have := href i j hi hj
  exact mul_nonneg (hov i j hi hj) (by linarith)

lemma remainderSum_le_area (ov ref : Img)
    (hov : ∀ i j, i < ref.h → j < ref.w → 0 ≤ ov.pix i j ∧ ov.pix i j ≤ 1)
    (href : ∀ i j, i < ref.h → j < ref.w → 0 ≤ ref.pix i j ∧ ref.pix i j ≤ 1) :
    remainderSum ov ref ≤ (ref.h : ℚ) * (ref.w : ℚ) := by
  have hle : remainderSum ov ref
      ≤ ∑ _i ∈ Finset.range ref.h, ∑ _j ∈ Finset.range ref.w, (1 : ℚ) := by
    refine Finset.sum_le_sum fun i hi => Finset.sum_le_sum fun j hj => ?_
    rw [Finset.mem_range] at hi hj
    obtain ⟨ho0, ho1⟩ := hov i j hi hj
    obtain ⟨hr0, hr1⟩ := href i j hi hj
    have h1 : 1 - ref.pix i j ≤ 1 := by linarith
    have h0 : 0 ≤ 1 - ref.pix i j := by linarith
    calc ov.pix i j * (1 - ref.pix i j) ≤ 1 * (1 - ref.pix i j) :=
          mul_le_mul_of_nonneg_right ho1 h0
      _ = 1 - ref.pix i j := one_mul _
      _ ≤ 1 := h1
  calc remainderSum ov ref ≤ _ := hle
    _ = (ref.h : ℚ) * (ref.w : ℚ) := by
        simp [Finset.sum_const, mul_comm]

/-! ## Combined facts about a finished search -/

lemma searchResult_eq_optLoop (overlay_img ref_img : CharImage) :
    searchResult overlay_img ref_img
      = optLoop (normalizeImg overlay_img.image) (normalizeImg ref_img.image)
          (searchFuel ref_img.image) (0, 0)
          [((0, 0), remainderSum (normalizeImg overlay_img.image)
              (normalizeImg ref_img.image))] := rfl

/-- Everything `optLoop_sound` yields, transported to `searchResult`. -/
lemma searchResult_spec (overlay_img ref_img : CharImage)
    (hh : overlay_img.image.h = ref_img.image.h)
    (hw : overlay_img.image.w = ref_img.image.w)
    (o : Int × Int) (memo : Memo)
    (hsr : searchResult overlay_img ref_img = some (o, memo)) :
    offsetRemainder (normalizeImg overlay_img.image) (normalizeImg ref_img.image) o
      ≤ offsetRemainder (normalizeImg overlay_img.image) (normalizeImg ref_img.image) (0, 0) ∧
    MemoInv (normalizeImg overlay_img.image) (normalizeImg ref_img.image) memo ∧
    memoLookup memo o
      = some (offsetRemainder (normalizeImg overlay_img.image)
          (normalizeImg ref_img.image) o) := by
  have hh2 : (normalizeImg overlay_img.image).h = (normalizeImg ref_img.image).h := hh
  have hw2 : (normalizeImg overlay_img.image).w = (normalizeImg ref_img.image).w := hw
  obtain ⟨hinv, hlook⟩ := initMemo_spec (normalizeImg overlay_img.image)
    (normalizeImg ref_img.image) hh2 hw2
  rw [searchResult_eq_optLoop] at hsr
  exact optLoop_sound _ _ _ _ _ _ _ hinv hlook hsr

/-- Unfolding `optimize_offset` once the search is done. -/
lemma optimize_offset_eq (overlay_img ref_img : CharImage) (font_size : ℚ)
    (o : Int × Int) (memo : Memo)
    (hsr : searchResult overlay_img ref_img = some (o, memo)) :
    optimize_offset overlay_img ref_img font_size = some
      { size := ((overlay_img.bbox.2.2.1 - overlay_img.bbox.1) / font_size,
                 (overlay_img.bbox.2.2.2 - overlay_img.bbox.2.1) / font_size),
        offset := (((o.1 : ℚ) + (overlay_img.xy.1 - ref_img.xy.1)) / font_size,
                   (o.2 : ℚ) / font_size),
        remainder := (memoLookup memo o).getD 0
          / ((ref_img.image.h : ℚ) * (ref_img.image.w : ℚ)) } := by
  unfold optimize_offset
  rw [hsr]

/-! ## Witness fixtures: a 1×1 full-ink test character -/

/-- A 1×1 full-ink rendered character (raw intensity 0 everywhere),
bounding box `(0,0,1,1)`, x-anchor 0. -/
def unitInk : CharImage := ⟨⟨1, 1, fun _ _ => 0⟩, (0, 0, 1, 1), (0, 3/4)⟩

/-- The memo the search on `unitInk` against itself produces: all eight
neighbors cost 255 (the pad value landing on full ink) and the origin 0. -/
def unitMemo : Memo :=
  [((1, -1), 255), ((0, -1), 255), ((-1, -1), 255), ((-1, 0), 255),
   ((-1, 1), 255), ((0, 1), 255), ((1, 1), 255), ((1, 0), 255), ((0, 0), 0)]

/-! ## Claim theorems for the offset optimizer -/

/-- C4: OffsetOptimizer never increases cost: for every pair of equal-shape
input bitmaps, the remainder at the final offset found by the greedy
descent is at most the remainder at the starting offset `(0, 0)`. -/
theorem optimizer_never_increases_cost (overlay_img ref_img : CharImage)
    (hh : overlay_img.image.h = ref_img.image.h)
    (hw : overlay_img.image.w = ref_img.image.w)
    (o : Int × Int) (memo : Memo)
    (hsr : searchResult overlay_img ref_img = some (o, memo)) :
    offsetRemainder (normalizeImg overlay_img.image) (normalizeImg ref_img.image) o
      ≤ offsetRemainder (normalizeImg overlay_img.image) (normalizeImg ref_img.image) (0, 0) :=
  (searchResult_spec overlay_img ref_img hh hw o memo hsr).1

theorem optimizer_never_increases_cost_witness :
    offsetRemainder (normalizeImg unitInk.image) (normalizeImg unitInk.image) (0, 0)
      ≤ offsetRemainder (normalizeImg unitInk.image) (normalizeImg unitInk.image) (0, 0) :=
  optimizer_never_increases_cost unitInk unitInk rfl rfl (0, 0) unitMemo
    (by with_unfolding_all rfl)

/-- C10: the greedy descent loop terminates for every pair of equal-shape
input bitmaps: each accepted move strictly decreases the memoized
remainder, the remainder takes only finitely many values, so the search
(run here with its proved-sufficient fuel) always returns a result. -/
theorem optimize_offset_terminates (overlay_img ref_img : CharImage)
    (hh : overlay_img.image.h = ref_img.image.h)
    (hw : overlay_img.image.w = ref_img.image.w) (font_size : ℚ) :
    (optimize_offset overlay_img ref_img font_size).isSome := by
  have h := searchResult_isSome overlay_img ref_img hh hw
  rcases hsr : searchResult overlay_img ref_img with _ | ⟨o, memo⟩
  · rw [hsr] at h
    simp at h
  · rw [optimize_offset_eq overlay_img ref_img font_size o memo hsr]
    rfl

theorem optimize_offset_terminates_witness :
    (optimize_offset unitInk unitInk 1).isSome :=
  optimize_offset_terminates unitInk unitInk rfl rfl 1

/-- C3: one iteration of the hill climb evaluates the costs of all 8
neighbors of the current offset in the fixed enumeration order
`(1,0),(1,1),(0,1),(-1,1),(-1,0),(-1,-1),(0,-1),(1,-1)` (first conjunct),
the chosen index has overall-minimum cost (second conjunct), and the
memoized loop as a whole computes exactly the memo-free greedy descent
`pureLoop` — which moves to the first overall-minimum neighbor and stops
exactly when the best neighbor's cost is not strictly below the current
cost — so caching remainders by offset across iterations never changes a
decision (third conjunct). -/
theorem offset_search_iteration (ov ref : Img) (o : Int × Int) (memo : Memo)
    (hinv : MemoInv ov ref memo)
    (hcur : memoLookup memo o = some (offsetRemainder ov ref o)) :
    (stepNeighbors ov ref o neighbors memo).1
        = neighbors.map (fun d => offsetRemainder ov ref (o.1 + d.1, o.2 + d.2)) ∧
    (∀ k, k < (stepNeighbors ov ref o neighbors memo).1.length →
        (stepNeighbors ov ref o neighbors memo).1.getD
          (argminList (stepNeighbors ov ref o neighbors memo).1) 0
          ≤ (stepNeighbors ov ref o neighbors memo).1.getD k 0) ∧
    (∀ fuel, (optLoop ov ref fuel o memo).map Prod.fst = pureLoop ov ref fuel o) := by
  obtain ⟨hfst, _, _, _⟩ := stepNeighbors_spec ov ref o neighbors memo hinv
  exact ⟨hfst, fun k hk => argminList_getD_le _ k hk,
    fun fuel => optLoop_pure ov ref fuel o memo hinv hcur⟩

theorem offset_search_iteration_witness :
    (stepNeighbors unitInk.image unitInk.image (0, 0) neighbors
        [((0, 0), remainderSum unitInk.image unitInk.image)]).1
      = neighbors.map (fun d => offsetRemainder unitInk.image unitInk.image
          (((0, 0) : Int × Int).1 + d.1, ((0, 0) : Int × Int).2 + d.2)) :=
  (offset_search_iteration unitInk.image unitInk.image (0, 0)
    [((0, 0), remainderSum unitInk.image unitInk.image)]
    (initMemo_spec unitInk.image unitInk.image rfl rfl).1
    (initMemo_spec unitInk.image unitInk.image rfl rfl).2).1

/-- C8: the reported offset equals
`(searchOffset.x + (overlay x-anchor − reference x-anchor), searchOffset.y)`
divided componentwise by the overlay font size; the reported remainder is
the raw remainder at the winning offset divided exactly once by W×H of the
reference bitmap; and during the search only raw (un-divided) remainders
are ever stored in the memo. -/
theorem offset_reporting (overlay_img ref_img : CharImage) (font_size : ℚ)
    (hh : overlay_img.image.h = ref_img.image.h)
    (hw : overlay_img.image.w = ref_img.image.w)
    (o : Int × Int) (memo : Memo)
    (hsr : searchResult overlay_img ref_img = some (o, memo)) :
    optimize_offset overlay_img ref_img font_size = some
      { size := ((overlay_img.bbox.2.2.1 - overlay_img.bbox.1) / font_size,
                 (overlay_img.bbox.2.2.2 - overlay_img.bbox.2.1) / font_size),
        offset := (((o.1 : ℚ) + (overlay_img.xy.1 - ref_img.xy.1)) / font_size,
                   (o.2 : ℚ) / font_size),
        remainder := offsetRemainder (normalizeImg overlay_img.image)
            (normalizeImg ref_img.image) o
          / ((ref_img.image.h : ℚ) * (ref_img.image.w : ℚ)) } ∧
    (∀ o' r, memoLookup memo o' = some r
        → r = offsetRemainder (normalizeImg overlay_img.image)
            (normalizeImg ref_img.image) o') := by
  obtain ⟨hle, hinv, hlook⟩ := searchResult_spec overlay_img ref_img hh hw o memo hsr
  refine ⟨?_, hinv⟩
  rw [optimize_offset_eq overlay_img ref_img font_size o memo hsr, hlook, Option.getD_some]

theorem offset_reporting_witness :
    optimize_offset unitInk unitInk 1 = some
      { size := ((unitInk.bbox.2.2.1 - unitInk.bbox.1) / 1,
                 (unitInk.bbox.2.2.2 - unitInk.bbox.2.1) / 1),
        offset := (((((0, 0) : Int × Int).1 : ℚ) + (unitInk.xy.1 - unitInk.xy.1)) / 1,
                   ((((0, 0) : Int × Int).2 : ℚ)) / 1),
        remainder := offsetRemainder (normalizeImg unitInk.image)
            (normalizeImg unitInk.image) (0, 0)
          / ((unitInk.image.h : ℚ) * (unitInk.image.w : ℚ)) } :=
  (offset_reporting unitInk unitInk 1 rfl rfl (0, 0) unitMemo
    (by with_unfolding_all rfl)).1

/-- C1: for every pair of equal-shape rendered bitmaps with `uint8`
intensities on a positive canvas, the `remainder` ratio reported by
`optimize_offset` lies in the closed interval `[0, 1]`, for every reachable
final offset. -/
theorem remainder_ratio_in_unit_interval (overlay_img ref_img : CharImage) (font_size : ℚ)
    (hh : overlay_img.image.h = ref_img.image.h)
    (hw : overlay_img.image.w = ref_img.image.w)
    (hpos : 0 < ref_img.image.h ∧ 0 < ref_img.image.w)
    (hrefB : ∀ i j, i < ref_img.image.h → j < ref_img.image.w →
        0 ≤ ref_img.image.pix i j ∧ ref_img.image.pix i j ≤ 255)
    (hovB : ∀ i j, i < overlay_img.image.h → j < overlay_img.image.w →
        0 ≤ overlay_img.image.pix i j ∧ overlay_img.image.pix i j ≤ 255)
    (res : OffsetResult)
    (hres : optimize_offset overlay_img ref_img font_size = some res) :
    0 ≤ res.remainder ∧ res.remainder ≤ 1 := by
  rcases hsr : searchResult overlay_img ref_img with _ | ⟨o, memo⟩
  · unfold optimize_offset at hres
    rw [hsr] at hres
    cases hres
  · rw [optimize_offset_eq overlay_img ref_img font_size o memo hsr] at hres
    obtain rfl := (Option.some.inj hres).symm
    obtain ⟨hle, hinv, hlook⟩ := searchResult_spec overlay_img ref_img hh hw o memo hsr
    have e1 : (normalizeImg ref_img.image).h = ref_img.image.h := rfl
    have e2 : (normalizeImg ref_img.image).w = ref_img.image.w := rfl
    have e3 : (normalizeImg overlay_img.image).h = overlay_img.image.h := rfl
    have e4 : (normalizeImg overlay_img.image).w = overlay_img.image.w := rfl
    have hovN := normalize_bounds overlay_img.image hovB
    have hrefN := normalize_bounds ref_img.image hrefB
    have hF0 : 0 ≤ offsetRemainder (normalizeImg overlay_img.image)
        (normalizeImg ref_img.image) o := by
      refine remainderSum_nonneg _ _ ?_ ?_
      · intro i j hi hj
        exact move_image_nonneg (normalizeImg overlay_img.image) o.1 o.2
          (fun i j hi hj => (hovN i j hi hj).1) i j
      · intro i j hi hj
        exact (hrefN i j hi hj).2
    have hstart : offsetRemainder (normalizeImg overlay_img.image)
        (normalizeImg ref_img.image) (0, 0)
        = remainderSum (normalizeImg overlay_img.image) (normalizeImg ref_img.image) :=
      offsetRemainder_zero _ _ hh hw
    have hA : remainderSum (normalizeImg overlay_img.image) (normalizeImg ref_img.image)
        ≤ (ref_img.image.h : ℚ) * (ref_img.image.w : ℚ) := by
      refine remainderSum_le_area _ _ ?_ ?_
      · intro i j hi hj
        exact hovN i j (by omega) (by omega)
      · intro i j hi hj
        exact hrefN i j hi hj
    have harea : (0 : ℚ) < (ref_img.image.h : ℚ) * (ref_img.image.w : ℚ) := by
      have h1 : (0 : ℚ) < (ref_img.image.h : ℚ) := by exact_mod_cast hpos.1
      have h2 : (0 : ℚ) < (ref_img.image.w : ℚ) := by exact_mod_cast hpos.2
      exact mul_pos h1 h2
    simp only [hlook, Option.getD_some]
    constructor
    · exact div_nonneg hF0 (le_of_lt harea)
    · rw [div_le_one harea]
      refine le_trans hle ?_
      rw [hstart]
      exact hA

theorem remainder_ratio_in_unit_interval_witness :
    0 ≤ (⟨(1, 1), (0, 0), 0⟩ : OffsetResult).remainder ∧
    (⟨(1, 1), (0, 0), 0⟩ : OffsetResult).remainder ≤ 1 :=
  remainder_ratio_in_unit_interval unitInk unitInk 1 rfl rfl
    ⟨Nat.one_pos, Nat.one_pos⟩
    (fun i j hi hj => by constructor <;> norm_num [unitInk])
    (fun i j hi hj => by constructor <;> norm_num [unitInk])
    ⟨(1, 1), (0, 0), 0⟩ (by with_unfolding_all rfl)

/-- C2 (code defect witness): in `optimize_offset` both bitmaps are divided
by 255 *before* `move_image` is called with its default `pad_color = 255`,
so the bitmap fed to the remainder sum at a shifted candidate offset holds
raw intensity 255 in the vacated pixels — not the normalized background
value 1.0.  On a 1×1 full-ink pair, the candidate offset `(1, 0)` is fed a
pixel of value 255 and costs 255, where padding with the normalized
background 1.0 would cost 1. -/
theorem move_image_pad_mismatch :
    (move_image (normalizeImg unitInk.image) 1 0 255).pix 0 0 = 255 ∧
    offsetRemainder (normalizeImg unitInk.image) (normalizeImg unitInk.image) (1, 0) = 255 ∧
    (move_image (normalizeImg unitInk.image) 1 0 1).pix 0 0 = 1 ∧
    remainderSum (move_image (normalizeImg unitInk.image) 1 0 1)
      (normalizeImg unitInk.image) = 1 ∧
    (255 : ℚ) ≠ 1 := by
  refine ⟨?_, ?_, ?_, ?_, by norm_num⟩ <;> with_unfolding_all rfl

/-! ## The outer scale search (`align_font`) and the per-charset
aggregation (`align_font_instance`)

The rasterizer and per-character optimizer enter as function parameters
(`inst : ℚ → InstanceResult`, `perChar : Char → OffsetResult`): rendering a
font at a trial scale is external, deterministic PIL code, so the embedded
`align_font` is parametric in the scale-to-result map it drives. -/

/-- Embedding of `np.linspace(low, high, n)`. -/
def linspace (low high : ℚ) (n : Nat) : List ℚ :=
  (List.range n).map fun (i : Nat) => low + (i : ℚ) * ((high - low) / ((n : ℚ) - 1))

/-- The dictionary returned by `align_font_instance`. -/
structure InstanceResult where
  characters : List (Char × OffsetResult)
  average_remainder : ℚ
  median_y_offset : ℚ
deriving DecidableEq

/-- The fixed calibration charset. -/
def DEFAULT_CHARS : List Char :=
  "abcdefghijklmnopqrstuvwxyzABCDEFGHIJKLMNOPQRSTUVWXYZ".data

/-- Embedding of `align_font_instance`: run the per-character optimizer on
every charset character (in charset order; Python dicts preserve insertion
order), then aggregate `np.mean` of the remainders and
`sorted(y_offsets)[n // 2]`. -/
def align_font_instance (perChar : Char → OffsetResult) (charset : List Char) :
    InstanceResult :=
  let characters := charset.map fun c => (c, perChar c)
  { characters := characters,
    average_remainder :=
      (characters.map fun p => p.2.remainder).sum / (characters.length : ℚ),
    median_y_offset :=
      (List.insertionSort (· ≤ ·) (characters.map fun p => p.2.offset.2)).getD
        (characters.length / 2) 0 }

/-- The record returned by `align_font` (font names and paths, which are
external strings, omitted). -/
structure AlignResult where
  converged : Bool
  font_scale : ℚ
  result : InstanceResult
deriving DecidableEq

/-- Stand-in default for out-of-range `List.getD` reads (never reached on
the in-range indices used below). -/
def emptyInstanceResult : InstanceResult := ⟨[], 0, 0⟩

/-- Outcome of one iteration of the `while True` loop in `align_font`. -/
inductive StepOutcome where
  | stop (converged : Bool) (font_scale : ℚ) (result : InstanceResult)
  | narrow (low_scale high_scale : ℚ)
deriving DecidableEq

/-- The decision at the end of one `align_font` iteration, given the
sampled scales, their results, and `min_i = np.argmin(average_remainder)`:
return with `converged = is_within_bounds` when the minimum is at a
boundary index (converged false) or both neighbor scores are within
`score_epsilon` or the neighboring-scale span is below `scale_epsilon`
(converged true); otherwise narrow the bracket to
`[scales[min_i - 1], scales[min_i + 1]]`. -/
def alignDecide (score_epsilon scale_epsilon : ℚ) (scales : List ℚ)
    (results : List InstanceResult) (min_i : Nat) : StepOutcome :=
  if ¬(0 < min_i ∧ min_i < results.length - 1) then
    .stop false (scales.getD min_i 0) (results.getD min_i emptyInstanceResult)
  else if
    (abs ((results.getD (min_i - 1) emptyInstanceResult).average_remainder
        - (results.getD min_i emptyInstanceResult).average_remainder) < score_epsilon ∧
     abs ((results.getD (min_i + 1) emptyInstanceResult).average_remainder
        - (results.getD min_i emptyInstanceResult).average_remainder) < score_epsilon) ∨
    scales.getD (min_i + 1) 0 - scales.getD (min_i - 1) 0 < scale_epsilon then
    .stop true (scales.getD min_i 0) (results.getD min_i emptyInstanceResult)
  else
    .narrow (scales.getD (min_i - 1) 0) (scales.getD (min_i + 1) 0)

/-- One iteration body of `align_font`: sample `resolution` equally spaced
scales across the bracket, evaluate the full charset at each, and decide. -/
def alignStep (inst : ℚ → InstanceResult) (score_epsilon scale_epsilon : ℚ)
    (resolution : Nat) (low_scale high_scale : ℚ) : StepOutcome :=
  alignDecide score_epsilon scale_epsilon (linspace low_scale high_scale resolution)
    ((linspace low_scale high_scale resolution).map inst)
    (argminList (((linspace low_scale high_scale resolution).map inst).map
      fun r => r.average_remainder))

/-- The `while True` bracket-narrowing loop of `align_font`, with fuel. -/
def alignLoop (inst : ℚ → InstanceResult) (score_epsilon scale_epsilon : ℚ)
    (resolution : Nat) : Nat → ℚ → ℚ → Option AlignResult
  | 0, _, _ => none
  | fuel + 1, low_scale, high_scale =>
    match alignStep inst score_epsilon scale_epsilon resolution low_scale high_scale with
    | .stop c s r => some ⟨c, s, r⟩
    | .narrow l h => alignLoop inst score_epsilon scale_epsilon resolution fuel l h

/-- Embedding of `align_font` with its default parameters: bracket `[0.5, 2.0]`,
`score_epsilon = 1e-5`, `scale_epsilon = 0.01`, `resolution = 25` (the
exact rationals stand in for the float literals). -/
def align_font (inst : ℚ → InstanceResult) : Option AlignResult :=
  alignLoop inst (1 / 100000) (1 / 100) 25 100 (1 / 2) 2

lemma alignLoop_succ (inst : ℚ → InstanceResult) (eps seps : ℚ)
    (resolution fuel : Nat) (low high : ℚ) :
    alignLoop inst eps seps resolution (fuel + 1) low high =
      match alignStep inst eps seps resolution low high with
      | .stop c s r => some ⟨c, s, r⟩
      | .narrow l h => alignLoop inst eps seps resolution fuel l h := rfl

lemma length_linspace (low high : ℚ) (n : Nat) : (linspace low high n).length = n := by
  rw [linspace, List.length_map, List.length_range]

lemma getD_range (n k : Nat) (hk : k < n) : (List.range n).getD k 0 = k := by
  rw [List.getD_eq_getElem _ _ (by simpa using hk)]
  exact List.getElem_range k (by simpa using hk)

lemma linspace_getD (low high : ℚ) (n k : Nat) (hk : k < n) :
    (linspace low high n).getD k 0
      = low + (k : ℚ) * ((high - low) / ((n : ℚ) - 1)) := by
  rw [linspace, getD_map _ 0 0 (List.range n) k (by simpa using hk), getD_range n k hk]

/-- C5: when an iteration's minimum `averageRemainder` sits at index 0 or at
the last sampled index, `align_font` stops immediately with
`converged = false` and returns that boundary sample; in particular one
iteration of fuel suffices, whatever the other iterations would do. -/
theorem scale_search_boundary (inst : ℚ → InstanceResult) (eps seps : ℚ)
    (resolution : Nat) (low high : ℚ) (m : Nat)
    (hm : m = argminList (((linspace low high resolution).map inst).map
        fun r => r.average_remainder))
    (hmin : m = 0 ∨ m = resolution - 1) :
    alignStep inst eps seps resolution low high
      = .stop false ((linspace low high resolution).getD m 0)
          (((linspace low high resolution).map inst).getD m emptyInstanceResult) ∧
    ∀ fuel, alignLoop inst eps seps resolution (fuel + 1) low high
      = some ⟨false, (linspace low high resolution).getD m 0,
          ((linspace low high resolution).map inst).getD m emptyInstanceResult⟩ := by
  have hlen : ((linspace low high resolution).map inst).length = resolution := by
    rw [List.length_map, length_linspace]
  have hstep : alignStep inst eps seps resolution low high
      = .stop false ((linspace low high resolution).getD m 0)
          (((linspace low high resolution).map inst).getD m emptyInstanceResult) := by
    unfold alignStep alignDecide
    rw [← hm, hlen]
    rw [if_pos (by rcases hmin with h | h <;> omega)]
  refine ⟨hstep, fun fuel => ?_⟩
  rw [alignLoop_succ, hstep]

/-- Linear average-remainder oracle: minimized at the lowest sampled scale. -/
def instLinear : ℚ → InstanceResult := fun s => ⟨[], s, 0⟩

theorem scale_search_boundary_witness :
    alignLoop instLinear (1 / 100000) (1 / 100) 3 1 0 2
      = some ⟨false, (linspace 0 2 3).getD 0 0,
          ((linspace 0 2 3).map instLinear).getD 0 emptyInstanceResult⟩ :=
  (scale_search_boundary instLinear (1 / 100000) (1 / 100) 3 0 2 0
    (by with_unfolding_all rfl) (Or.inl rfl)).2 0

/-- C6: when an iteration's minimum is interior, `align_font` stops with
`converged = true` exactly when both immediate neighbors' average remainder
is within `score_epsilon` of the minimum's value or the scale span between
the two neighbors of the minimum is below `scale_epsilon`; otherwise it
narrows the bracket to `[scales[m-1], scales[m+1]]` and re-runs the loop
there, sampling `resolution` scales with equal consecutive spacing. -/
theorem scale_search_interior (inst : ℚ → InstanceResult) (eps seps : ℚ)
    (resolution : Nat) (low high : ℚ) (m : Nat)
    (hm : m = argminList (((linspace low high resolution).map inst).map
        fun r => r.average_remainder))
    (hmin : 0 < m ∧ m < resolution - 1) :
    (alignStep inst eps seps resolution low high
      = if (abs ((((linspace low high resolution).map inst).getD (m - 1)
                emptyInstanceResult).average_remainder
              - (((linspace low high resolution).map inst).getD m
                emptyInstanceResult).average_remainder) < eps ∧
            abs ((((linspace low high resolution).map inst).getD (m + 1)
                emptyInstanceResult).average_remainder
              - (((linspace low high resolution).map inst).getD m
                emptyInstanceResult).average_remainder) < eps) ∨
          (linspace low high resolution).getD (m + 1) 0
            - (linspace low high resolution).getD (m - 1) 0 < seps then
        .stop true ((linspace low high resolution).getD m 0)
          (((linspace low high resolution).map inst).getD m emptyInstanceResult)
      else
        .narrow ((linspace low high resolution).getD (m - 1) 0)
          ((linspace low high resolution).getD (m + 1) 0)) ∧
    (∀ fuel l2 h2, alignStep inst eps seps resolution low high = .narrow l2 h2 →
        alignLoop inst eps seps resolution (fuel + 1) low high
          = alignLoop inst eps seps resolution fuel l2 h2) ∧
    (linspace low high resolution).length = resolution ∧
    (∀ k, k + 1 < resolution →
        (linspace low high resolution).getD (k + 1) 0
          - (linspace low high resolution).getD k 0
          = (high - low) / ((resolution : ℚ) - 1)) := by
  have hlen : ((linspace low high resolution).map inst).length = resolution := by
    rw [List.length_map, length_linspace]
  refine ⟨?_, fun fuel l2 h2 hnarrow => ?_, length_linspace low high resolution, ?_⟩
  · unfold alignStep alignDecide
    rw [← hm, hlen]
    rw [if_neg (not_not_intro hmin)]
  · rw [alignLoop_succ, hnarrow]
  · intro k hk
    rw [linspace_getD low high resolution (k + 1) (by omega),
      linspace_getD low high resolution k (by omega)]
    push_cast
    ring

/-- V-shaped average-remainder oracle: minimized at the middle sample. -/
def instVee : ℚ → InstanceResult := fun s => ⟨[], (s - 1) * (s - 1), 0⟩

theorem scale_search_interior_witness :
    (linspace 0 2 3).length = 3 :=
  (scale_search_interior instVee (1 / 100000) (1 / 100) 3 0 2 1
    (by with_unfolding_all rfl) ⟨Nat.one_pos, Nat.one_lt_two⟩).2.2.1

/-- The per-character records of the median example in the spec:
y-offsets `0.10, 0.05, 0.20, 0.00, 0.15` for `a, b, c, d, e`. -/
def medianExamplePerChar : Char → OffsetResult := fun c =>
  if c = 'a' then ⟨(0, 0), (0, 1 / 10), 0⟩
  else if c = 'b' then ⟨(0, 0), (0, 1 / 20), 0⟩
  else if c = 'c' then ⟨(0, 0), (0, 1 / 5), 0⟩
  else if c = 'd' then ⟨(0, 0), (0, 0), 0⟩
  else ⟨(0, 0), (0, 3 / 20), 0⟩

/-- C7: `align_font_instance` produces the per-character map in charset
order covering the charset exactly once, its average remainder is the
arithmetic mean of the per-character remainders, and its median y-offset is
the element at zero-based index `⌊n/2⌋` of the ascending-sorted y-offset
list with no interpolation; on y-offsets `[0.10, 0.05, 0.20, 0.00, 0.15]`
that median is `0.10`. -/
theorem glyph_set_aggregation (perChar : Char → OffsetResult) (charset : List Char) :
    (align_font_instance perChar charset).characters.map Prod.fst = charset ∧
    (align_font_instance perChar charset).average_remainder
      = (charset.map fun c => (perChar c).remainder).sum / (charset.length : ℚ) ∧
    (∃ l : List ℚ, l.Perm (charset.map fun c => (perChar c).offset.2) ∧
        l.Sorted (· ≤ ·) ∧
        (align_font_instance perChar charset).median_y_offset
          = l.getD (charset.length / 2) 0) ∧
    (align_font_instance medianExamplePerChar
        ['a', 'b', 'c', 'd', 'e']).median_y_offset = 1 / 10 := by
  refine ⟨?_, ?_, ?_, by with_unfolding_all rfl⟩
  · show ((charset.map fun c => (c, perChar c)).map Prod.fst) = charset
    rw [List.map_map]
    have hid : (Prod.fst ∘ fun c => (c, perChar c)) = (id : Char → Char) := rfl
    rw [hid, List.map_id]
  · have hlist : ((charset.map fun c => (c, perChar c)).map fun p => p.2.remainder)
        = charset.map fun c => (perChar c).remainder := by
      rw [List.map_map]
      rfl
    show ((charset.map fun c => (c, perChar c)).map fun p => p.2.remainder).sum
        / (((charset.map fun c => (c, perChar c)).length : Nat) : ℚ) = _
    rw [hlist, List.length_map]
  · have hlist : ((charset.map fun c => (c, perChar c)).map fun p => p.2.offset.2)
        = charset.map fun c => (perChar c).offset.2 := by
      rw [List.map_map]
      rfl
    refine ⟨List.insertionSort (· ≤ ·) (charset.map fun c => (perChar c).offset.2),
      List.perm_insertionSort _ _, List.sorted_insertionSort _ _, ?_⟩
    show (List.insertionSort (· ≤ ·)
        ((charset.map fun c => (c, perChar c)).map fun p => p.2.offset.2)).getD
        ((charset.map fun c => (c, perChar c)).length / 2) 0 = _
    rw [hlist, List.length_map]

/-! ## `fonts.py`: rule-based weight escalation

Identifiers are modelled as `List Char` (Python strings under the string
operations the source uses: membership, `split("-", 1)`, substring test,
`replace`). -/

/-- Tests whether `p` begins the list `l`. -/
def beginsWith : List Char → List Char → Bool
  | [], _ => true
  | _ :: _, [] => false
  | p :: ps, c :: cs => p == c && beginsWith ps cs

/-- Python's `pat in s` substring test. -/
def containsSeq (pat : List Char) : List Char → Bool
  | [] => beginsWith pat []
  | c :: cs => beginsWith pat (c :: cs) || containsSeq pat cs

/-- Scanner for `replaceAll`: with `skip = 0` it looks for the next
occurrence of the pattern (emitting the replacement and then skipping the
rest of the matched pattern); with `skip > 0` it discards one matched
character. -/
def replaceGo (pat rep : List Char) : Nat → List Char → List Char
  | _, [] => []
  | skip + 1, _ :: cs => replaceGo pat rep skip cs
  | 0, c :: cs =>
    if pat ≠ [] ∧ beginsWith pat (c :: cs) = true then
      rep ++ replaceGo pat rep (pat.length - 1) cs
    else
      c :: replaceGo pat rep 0 cs

/-- Python's `s.replace(pat, rep)` for a nonempty pattern: scan left to
right, replacing non-overlapping occurrences.  (For `pat = []` this is the
identity; the source only replaces nonempty patterns.) -/
def replaceAll (pat rep : List Char) (l : List Char) : List Char :=
  replaceGo pat rep 0 l

/-- Embedding of `split(sep, maxsplit=1)`: the text before the first separator, and the
text after it when the separator occurs. -/
def splitFirst (sep : Char) : List Char → List Char × Option (List Char)
  | [] => ([], none)
  | c :: cs =>
    if c = sep then ([], some cs)
    else (c :: (splitFirst sep cs).1, (splitFirst sep cs).2)

/-- Result of `_bolden`. -/
inductive BoldenResult where
  | ok (identifier : List Char)
  | extraboldError
  | assertionError
deriving DecidableEq

/-- Embedding of `_bolden` from `fonts.py`: `extraboldError` models the
raised `FontIsExtraboldException`; `assertionError` models the failing
`assert modifiers == "Italic"` on any other modifier string. -/
def bolden (identifier : List Char) : BoldenResult :=
  if '-' ∉ identifier then .ok (identifier ++ "-Bold".data)
  else
    let family_name := (splitFirst '-' identifier).1
    let modifiers := (splitFirst '-' identifier).2.getD []
    if containsSeq "Extrabold".data modifiers then .extraboldError
    else if containsSeq "Light".data modifiers then
      .ok (if containsSeq "Italic".data modifiers
        then family_name ++ "-Italic".data else family_name)
    else if containsSeq "Semibold".data modifiers then
      .ok (family_name ++ '-' :: replaceAll "Semibold".data "Bold".data modifiers)
    else if containsSeq "Bold".data modifiers then
      .ok (family_name ++ '-' :: replaceAll "Bold".data "Extrabold".data modifiers)
    else if modifiers = "Italic".data then
      .ok (family_name ++ "-BoldItalic".data)
    else .assertionError

/-- A record of the persisted alignment table, as consumed by
`setup_boldened_font` (per-character offsets omitted: they only feed the
canvas, which is external). -/
structure Remapping where
  overlay_font : List Char
  font_scale : ℚ
deriving DecidableEq

/-- Observable outcome of `setup_boldened_font` up to the external
registration step: `nonRenderable` is Python's `return None`; `crash` is a
propagated `AssertionError`; `proceeds` carries the font identifier and
size handed to registration / `canvas.setFont`. -/
inductive SetupOutcome where
  | crash
  | nonRenderable
  | proceeds (identifier : List Char) (size : ℚ)
deriving DecidableEq

/-- Embedding of `_handle_helvetica`. -/
def handle_helvetica (identifier : List Char) : List Char :=
  if identifier = "Helvetica-Italic".data then "Helvetica-Oblique".data
  else if identifier = "Helvetica-BoldItalic".data then "Helvetica-BoldOblique".data
  else identifier

/-- Embedding of `setup_boldened_font` after identifier disambiguation.
The remap-table lookup enters as the function `remap` (the table is read
from disk); font registration and the canvas are external collaborators,
so a successful run is truncated at `proceeds`. -/
def setup_boldened_font (remap : List Char → Option Remapping)
    (identifier : List Char) (size : ℚ) (use_extrabold : Bool) : SetupOutcome :=
  match remap identifier with
  | some r =>
    if ¬use_extrabold ∧ containsSeq "Extrabold".data r.overlay_font then .nonRenderable
    else .proceeds (handle_helvetica r.overlay_font) (size * r.font_scale)
  | none =>
    match bolden identifier with
    | .extraboldError => .nonRenderable
    | .assertionError => .crash
    | .ok identifier2 =>
      if ¬use_extrabold ∧ containsSeq "Extrabold".data identifier2 then .nonRenderable
      else .proceeds (handle_helvetica identifier2) size

lemma splitFirst_append (sep : Char) (fam rest : List Char) (h : sep ∉ fam) :
    splitFirst sep (fam ++ sep :: rest) = (fam, some rest) := by
  induction fam with
  | nil => simp [splitFirst]
  | cons c cs ih =>
    have hc : ¬(c = sep) := fun hcs => h (hcs ▸ List.mem_cons_self c cs)
    have hmem : sep ∉ cs := fun hm => h (List.mem_cons_of_mem c hm)
    simp only [List.cons_append, splitFirst, if_neg hc, List.append_eq, ih hmem]

/-- Evaluation of `_bolden` on an identifier with a dash-separated modifier block. -/
lemma bolden_split (fam mods : List Char) (hfam : '-' ∉ fam) :
    bolden (fam ++ '-' :: mods) =
      if containsSeq "Extrabold".data mods then .extraboldError
      else if containsSeq "Light".data mods then
        .ok (if containsSeq "Italic".data mods
          then fam ++ "-Italic".data else fam)
      else if containsSeq "Semibold".data mods then
        .ok (fam ++ '-' :: replaceAll "Semibold".data "Bold".data mods)
      else if containsSeq "Bold".data mods then
        .ok (fam ++ '-' :: replaceAll "Bold".data "Extrabold".data mods)
      else if mods = "Italic".data then
        .ok (fam ++ "-BoldItalic".data)
      else .assertionError := by
  have hmem : '-' ∈ fam ++ '-' :: mods :=
    List.mem_append_right fam (List.mem_cons_self '-' mods)
  unfold bolden
  rw [if_neg (not_not_intro hmem), splitFirst_append '-' fam mods hfam]
  rfl

/-- C9: with no precomputed alignment record for the disambiguated
identifier, `setup_boldened_font` falls back to `_bolden`'s rule-based
weight escalation: an identifier without a weight modifier gains Bold
(`Family ↦ Family-Bold`, `Family-Italic ↦ Family-BoldItalic`), a Bold
modifier escalates to Extrabold (`Family-Bold ↦ Family-Extrabold`,
`Family-BoldItalic ↦ Family-ExtraboldItalic`), and an identifier whose
modifiers already contain Extrabold makes `_bolden` raise, which
`setup_boldened_font` reports as non-renderable (Python's `return None`).
The no-modifier fallback flows through `setup_boldened_font` to the
registration step with the boldened identifier. -/
theorem bolden_fallback (remap : List Char → Option Remapping)
    (fam mods : List Char) (size : ℚ) (use_extrabold : Bool)
    (hfam : '-' ∉ fam)
    (hremapFam : remap fam = none)
    (hremapMods : remap (fam ++ '-' :: mods) = none) :
    bolden fam = .ok (fam ++ "-Bold".data) ∧
    bolden (fam ++ "-Italic".data) = .ok (fam ++ "-BoldItalic".data) ∧
    bolden (fam ++ "-Bold".data) = .ok (fam ++ "-Extrabold".data) ∧
    bolden (fam ++ "-BoldItalic".data) = .ok (fam ++ "-ExtraboldItalic".data) ∧
    setup_boldened_font remap fam size true
      = .proceeds (handle_helvetica (fam ++ "-Bold".data)) size ∧
    (containsSeq "Extrabold".data mods = true →
      bolden (fam ++ '-' :: mods) = .extraboldError ∧
      setup_boldened_font remap (fam ++ '-' :: mods) size use_extrabold
        = .nonRenderable) := by
  have h1 : bolden fam = .ok (fam ++ "-Bold".data) := by
    unfold bolden
    rw [if_pos hfam]
  have h2 : bolden (fam ++ "-Italic".data) = .ok (fam ++ "-BoldItalic".data) := by
    show bolden (fam ++ '-' :: "Italic".data) = _
    rw [bolden_split fam "Italic".data hfam,
      if_neg (by decide : ¬(containsSeq "Extrabold".data "Italic".data = true)),
      if_neg (by decide : ¬(containsSeq "Light".data "Italic".data = true)),
      if_neg (by decide : ¬(containsSeq "Semibold".data "Italic".data = true)),
      if_neg (by decide : ¬(containsSeq "Bold".data "Italic".data = true)),
      if_pos rfl]
  have h3 : bolden (fam ++ "-Bold".data) = .ok (fam ++ "-Extrabold".data) := by
    show bolden (fam ++ '-' :: "Bold".data) = _
    rw [bolden_split fam "Bold".data hfam,
      if_neg (by decide : ¬(containsSeq "Extrabold".data "Bold".data = true)),
      if_neg (by decide : ¬(containsSeq "Light".data "Bold".data = true)),
      if_neg (by decide : ¬(containsSeq "Semibold".data "Bold".data = true)),
      if_pos (by decide : containsSeq "Bold".data "Bold".data = true),
      show replaceAll "Bold".data "Extrabold".data "Bold".data = "Extrabold".data
        from by decide]
  have h4 : bolden (fam ++ "-BoldItalic".data)
      = .ok (fam ++ "-ExtraboldItalic".data) := by
    show bolden (fam ++ '-' :: "BoldItalic".data) = _
    rw [bolden_split fam "BoldItalic".data hfam,
      if_neg (by decide : ¬(containsSeq "Extrabold".data "BoldItalic".data = true)),
      if_neg (by decide : ¬(containsSeq "Light".data "BoldItalic".data = true)),
      if_neg (by decide : ¬(containsSeq "Semibold".data "BoldItalic".data = true)),
      if_pos (by decide : containsSeq "Bold".data "BoldItalic".data = true),
      show replaceAll "Bold".data "Extrabold".data "BoldItalic".data
          = "ExtraboldItalic".data from by decide]
  refine ⟨h1, h2, h3, h4, ?_, fun hEx => ?_⟩
  · simp only [setup_boldened_font, hremapFam, h1]
    simp
  · have ha : bolden (fam ++ '-' :: mods) = .extraboldError := by
      rw [bolden_split fam mods hfam, if_pos hEx]
    exact ⟨ha, by simp only [setup_boldened_font, hremapMods, ha]⟩

theorem bolden_fallback_witness :
    bolden ("Crimson".data ++ '-' :: "Extrabold".data) = .extraboldError ∧
    setup_boldened_font (fun _ => none) ("Crimson".data ++ '-' :: "Extrabold".data)
      12 true = .nonRenderable :=
  (bolden_fallback (fun _ => none) "Crimson".data "Extrabold".data 12 true
    (by decide) rfl rfl).2.2.2.2.2 (by decide)
